import Mathlib

/-!
Verification development for the NyanTheme (clitheme) console-output theming
wrapper.  The program executes a child command and rewrites its stdout/stderr
line by line according to pattern-based substitution rules loaded from a JSON
configuration.  Text is modelled as `List Char`; the asynchronous runtime is
modelled by explicit traces and outcome parameters; the regex primitive (an
excluded external collaborator) is modelled for literal patterns by standard
leftmost non-overlapping find-and-replace-all.
-/

/-- Model of Rust `str::to_lowercase` as used on ASCII command names:
lowercase every character. -/
def toLowerStr (s : List Char) : List Char := s.map Char.toLower

/-- Decidable test that the pattern `p` starts the text `s`, i.e. `s = p ++ t`
for some `t`.  This is where a literal regex pattern matches at the current
position. -/
def leadsWith : List Char → List Char → Bool
  | [], _ => true
  | _ :: _, [] => false
  | a :: p, b :: s => a == b && leadsWith p s

/-- Modelled from the spec: the regex-matching primitive is an excluded
external collaborator "presumed to provide standard find-and-replace-all
semantics over a compiled pattern".  For a literal (metacharacter-free)
pattern this is leftmost non-overlapping replace-all, implemented here with
explicit fuel so that it is structurally recursive; the fuel is always at
least the length of the text, which suffices because every step consumes at
least one character.  An empty pattern is treated as matching nothing (the
spec delegates empty-match behaviour to the primitive). -/
def replaceAllFuel (pat repl : List Char) : Nat → List Char → List Char
  | _, [] => []
  | 0, s => s
  | n + 1, c :: rest =>
    if pat ≠ [] ∧ leadsWith pat (c :: rest) then
      repl ++ replaceAllFuel pat repl n ((c :: rest).drop pat.length)
    else
      c :: replaceAllFuel pat repl n rest

/-- Replace all leftmost non-overlapping occurrences of `pat` in `s` by
`repl`: the model of `Regex::replace_all` for a literal pattern. -/
def listReplaceAll (pat repl s : List Char) : List Char :=
  replaceAllFuel pat repl s.length s

/-- Decidable substring-occurrence test, used to state pattern disjointness:
`pat` occurs somewhere inside `s`. -/
def occursIn (pat s : List Char) : Bool :=
  (List.range (s.length + 1)).any (fun i => leadsWith pat (s.drop i))

/-- One raw rule record of the JSON configuration file
(struct `ReplacementConfig` of `main.rs`): `pattern`, `replacement`,
optional `locale` (serde default `"default"` already applied), optional
`filter_commands` list (field `commands`). -/
structure ReplacementConfig where
  pattern : List Char
  replacement : List Char
  locale : List Char
  commands : List (List Char)
  deriving DecidableEq

/-- One compiled rule (struct `ReplacementRule` of `main.rs`).  The compiled
regex is represented by its literal pattern text. -/
structure ReplacementRule where
  pattern : List Char
  replacement : List Char
  locale : List Char
  commands : List (List Char)
  deriving DecidableEq

/-- Model of `ReplacementRule::from_config`: compile the pattern (the `compile`
parameter models `Regex::new`, the excluded regex primitive, returning `none`
on invalid pattern syntax), copy replacement and locale, and lowercase every
command-name filter entry. -/
def ReplacementRule.from_config (compile : List Char → Option (List Char))
    (config : ReplacementConfig) : Option ReplacementRule :=
  (compile config.pattern).map fun p =>
    { pattern := p
      replacement := config.replacement
      locale := config.locale
      commands := config.commands.map toLowerStr }

/-- The three possible shapes of the configuration source seen by
`load_config`: an unreadable file, a readable file whose root JSON element is
not an array, or a successfully parsed array of rule records. -/
inductive ConfigSource where
  | unreadable
  | badRoot
  | parsed (configs : List ReplacementConfig)
  deriving DecidableEq

/-- The rule-collection loop of `load_config`: each record that compiles is
pushed, each record that fails to compile is skipped (with a warning printed
in the source). -/
def loadRules (compile : List Char → Option (List Char)) :
    List ReplacementConfig → List ReplacementRule
  | [] => []
  | config :: rest =>
    match ReplacementRule.from_config compile config with
    | some rule => rule :: loadRules compile rest
    | none => loadRules compile rest

/-- Model of `load_config` of `main.rs`: an unreadable file or a non-array root is a
fatal error (`none`); otherwise the per-rule loop runs and the call succeeds
with the surviving rules. -/
def load_config (compile : List Char → Option (List Char)) :
    ConfigSource → Option (List ReplacementRule)
  | .unreadable => none
  | .badRoot => none
  | .parsed configs => some (loadRules compile configs)

/-- Model of `apply_replacements` of `main.rs`: lowercase the command name once, then
fold the rules over the accumulating text; a rule is skipped when its
command filter is non-empty and does not contain the lowercased command name,
or when its locale differs from the requested locale; otherwise all matches
of its pattern in the current text are replaced. -/
def apply_replacements (text : List Char) (command_name : List Char)
    (rules : List ReplacementRule) (locale : List Char) : List Char :=
  let command_name := toLowerStr command_name
  rules.foldl
    (fun result rule =>
      if rule.commands ≠ [] ∧ command_name ∉ rule.commands then result
      else if rule.locale ≠ locale then result
      else listReplaceAll rule.pattern rule.replacement result)
    text

/-- The applicability test of one rule, stated the way the specification
words it: the command filter is empty or contains the lowercased command
name, and the locale tag equals the requested locale exactly. -/
def ruleApplies (rule : ReplacementRule) (cmdLower locale : List Char) : Prop :=
  (rule.commands = [] ∨ cmdLower ∈ rule.commands) ∧ rule.locale = locale

instance (rule : ReplacementRule) (cmdLower locale : List Char) :
    Decidable (ruleApplies rule cmdLower locale) := by
  unfold ruleApplies; infer_instance

/-- One step of the rule fold, phrased through `ruleApplies`: an applicable
rule rewrites the accumulated text, any other rule leaves it unchanged. -/
def applyRuleStep (cmdLower locale : List Char) (result : List Char)
    (rule : ReplacementRule) : List Char :=
  if ruleApplies rule cmdLower locale then
    listReplaceAll rule.pattern rule.replacement result
  else result

/-- Splitting of a path at slash characters, for the `Path::file_name` model. -/
def splitSlash : List Char → List (List Char)
  | [] => [[]]
  | c :: rest =>
    if c = '/' then [] :: splitSlash rest
    else
      match splitSlash rest with
      | [] => [[c]]
      | seg :: segs => (c :: seg) :: segs

/-- Model of `PathBuf::file_name`: the last normal path component (empty and
current-directory components are skipped; a trailing parent-directory
component means there is no file name). -/
def file_name (p : List Char) : Option (List Char) :=
  let comps := (splitSlash p).filter (fun comp => comp ≠ [] ∧ comp ≠ ['.'])
  match comps.getLast? with
  | some comp => if comp = ['.', '.'] then none else some comp
  | none => none

/-- The resolved command name of `execute_command`: the basename of the first
argument, or `"unknown"` when the path has no file name. -/
def commandName (command : List (List Char)) : List Char :=
  match file_name (command.headD []) with
  | some n => n
  | none => "unknown".data

/-- The fixed interactive-program table of `execute_command`. -/
def interactive_commands : List (List Char) :=
  ["python".data, "python3".data, "ipython".data, "bash".data, "sh".data,
   "cmd".data, "zsh".data]

/-- The interactive classification of `execute_command`: some entry of the
fixed table equals the lowercased resolved command name. -/
def isInteractive (command : List (List Char)) : Bool :=
  interactive_commands.any (fun cmd => cmd == toLowerStr (commandName command))

/-- Both spawn branches configure the child's stdin as a fresh pipe, so
`child.stdin.take()` always yields a handle. -/
def stdinIsSome : Bool := true

/-- The spawn strategy chosen by `execute_command`: interactive commands are
re-spawned through `sh -c` with the arguments joined by single spaces and no
quoting; other commands run directly with their argument vector. -/
inductive SpawnSpec where
  | shellWrapped (program : List Char) (args : List (List Char))
  | direct (program : List Char) (args : List (List Char))
  deriving DecidableEq

/-- The wait status of the child (`std::process::ExitStatus`): a normal exit
carries a numeric code, termination by a signal carries none. -/
inductive WaitStatus where
  | exited (code : Int)
  | signaled
  deriving DecidableEq

/-- Model of `ExitStatus::code`: the numeric exit code if the child exited normally. -/
def WaitStatus.code : WaitStatus → Option Int
  | .exited n => some n
  | .signaled => none

/-- Outcome of one drained stream task (the `Result` inside a joined task). -/
inductive TaskOutcome where
  | succeeded
  | failed
  deriving DecidableEq

/-- The environment-determined events of one `execute_command` run: whether
the spawn call succeeded, how the wait on the child resolved, and the
outcomes of the three stream tasks observed during drainage. -/
structure ChildBehavior where
  spawnResult : Except (List Char) Unit
  waitResult : Except (List Char) WaitStatus
  stdoutDrain : TaskOutcome
  stderrDrain : TaskOutcome
  stdinDrain : Option TaskOutcome

/-- The observable outcome of a successful `execute_command` run: which spawn
strategy was used, whether a stdin-forwarding task was started, and the
reported exit code. -/
structure ExecOutcome where
  spawnSpec : SpawnSpec
  stdinForwarder : Bool
  exitCode : Int
  deriving DecidableEq

/-- Model of `execute_command` of `main.rs`: reject an empty command vector; classify
the command; spawn shell-wrapped or direct (`?` propagates a spawn failure);
start the output transformers and, for interactive commands, the stdin
forwarder; wait for the child (`?` propagates a wait failure); await the
three task handles with `let _ = ...`, observing and discarding their
outcomes; report the child's own exit code, or `1` when no code exists. -/
def execute_command (command : List (List Char)) (beh : ChildBehavior) :
    Except (List Char) ExecOutcome :=
  if command = [] then .error "必须指定要执行的命令".data
  else
    let is_interactive := isInteractive command
    let spawn :=
      if is_interactive then
        SpawnSpec.shellWrapped "sh".data
          ["-c".data, List.intercalate [' '] command]
      else
        SpawnSpec.direct (command.headD []) command.tail
    match beh.spawnResult with
    | .error e => .error e
    | .ok _ =>
      match beh.waitResult with
      | .error e => .error e
      | .ok status =>
        let _ := beh.stdoutDrain
        let _ := beh.stderrDrain
        let _ := beh.stdinDrain
        .ok
          { spawnSpec := spawn
            stdinForwarder := is_interactive && stdinIsSome
            exitCode := status.code.getD 1 }

/-- Character test used by the line splitter: not a line feed. -/
def notNL (c : Char) : Bool := c != '\n'

/-- The carriage-return stripping of tokio's line reader: drop one trailing
carriage return of a newline-terminated line. -/
def stripCR (line : List Char) : List Char :=
  if line.getLast? = some '\r' then line.dropLast else line

/-- Model of `tokio::io::Lines::next_line` on the remaining bytes: `none` at
end of stream; otherwise the text up to the next line feed.  When a line feed
is found it is consumed and one trailing carriage return is stripped; a final
unterminated line is returned verbatim. -/
def tokioNextLine (s : List Char) : Option (List Char × List Char) :=
  if s = [] then none
  else
    let pre := s.takeWhile notNL
    match s.dropWhile notNL with
    | [] => some (pre, [])
    | _ :: rest => some (stripCR pre, rest)

/-- Variant of `next_line` on a source that fails (`readErr`) once its bytes are
exhausted: complete buffered lines are still delivered, after which the read
error surfaces instead of end-of-stream. -/
def tokioNextLineE (readErr : Bool) (s : List Char) :
    Except Unit (Option (List Char × List Char)) :=
  if s.dropWhile notNL ≠ [] then .ok (tokioNextLine s)
  else if readErr then .error ()
  else .ok (tokioNextLine s)

/-- The observable operations of one `process_stream` run. -/
inductive StreamOp where
  | readLine (line : List Char)
  | writeAll (bytes : List Char)
  | flush
  | readFailed
  | writeFailed
  | atEnd
  deriving DecidableEq

/-- A sink that accepts a bounded number of `write_all` calls: `none` never
fails, `some 0` fails on the next write, `some (n+1)` accepts one write. -/
def takeWrite : Option Nat → Option (Option Nat)
  | none => some none
  | some 0 => none
  | some (n + 1) => some (some n)

/-- The `process_stream` loop of `main.rs`, with explicit fuel (always at
least the remaining length plus one): read the next line (`?` propagates a
read failure), apply the rules, `write_all` the transformed text, `write_all`
a single newline, `flush`, and continue; the result collects the operation
trace and, on success, the bytes written. -/
def psRun (command_name : List Char) (rules : List ReplacementRule)
    (locale : List Char) (readErr : Bool) :
    Nat → Option Nat → List Char → List StreamOp × Except Unit (List Char)
  | 0, _, _ => ([], .error ())
  | n + 1, cap, s =>
    match tokioNextLineE readErr s with
    | .error _ => ([.readFailed], .error ())
    | .ok none => ([.atEnd], .ok [])
    | .ok (some (line, rest)) =>
      let processed := apply_replacements line command_name rules locale
      match takeWrite cap with
      | none => ([.readLine line, .writeFailed], .error ())
      | some cap1 =>
        match takeWrite cap1 with
        | none => ([.readLine line, .writeAll processed, .writeFailed], .error ())
        | some cap2 =>
          let next := psRun command_name rules locale readErr n cap2 rest
          (.readLine line :: .writeAll processed :: .writeAll ['\n']
             :: .flush :: next.1,
           next.2.map (fun out => processed ++ '\n' :: out))

/-- Model of `process_stream` of `main.rs` over a whole source: run the loop with
sufficient fuel. -/
def process_stream (command_name : List Char) (rules : List ReplacementRule)
    (locale : List Char) (readErr : Bool) (cap : Option Nat)
    (source : List Char) : List StreamOp × Except Unit (List Char) :=
  psRun command_name rules locale readErr (source.length + 1) cap source

/-- Iterated `next_line` with fuel: the sequence of lines the loop reads. -/
def tokioLinesFuel : Nat → List Char → List (List Char)
  | 0, _ => []
  | n + 1, s =>
    match tokioNextLine s with
    | none => []
    | some (line, rest) => line :: tokioLinesFuel n rest

/-- The lines of a byte stream as the transformer sees them. -/
def tokioLines (s : List Char) : List (List Char) :=
  tokioLinesFuel (s.length + 1) s

/-! ### Properties of the literal replace-all primitive -/

theorem leadsWith_iff (p s : List Char) :
    leadsWith p s = true ↔ ∃ t, s = p ++ t := by
  induction p generalizing s with
  | nil => simp [leadsWith]
  | cons a p ih =>
    cases s with
    | nil => simp [leadsWith]
    | cons b s =>
      simp only [leadsWith, Bool.and_eq_true, beq_iff_eq, ih, List.cons_append]
      constructor
      · rintro ⟨rfl, t, rfl⟩
        exact ⟨t, rfl⟩
      · rintro ⟨t, h⟩
        injection h with h1 h2
        exact ⟨h1.symm, t, h2⟩

theorem replaceAllFuel_irrel (pat repl : List Char) :
    ∀ n m s, s.length ≤ n → s.length ≤ m →
      replaceAllFuel pat repl n s = replaceAllFuel pat repl m s := by
  intro n
  induction n with
  | zero =>
    intro m s hn _
    have hs : s = [] := List.eq_nil_of_length_eq_zero (Nat.le_zero.mp hn)
    subst hs
    cases m <;> rfl
  | succ n ih =>
    intro m s hn hm
    cases s with
    | nil => cases m <;> rfl
    | cons c rest =>
      obtain ⟨m', rfl⟩ : ∃ m', m = m' + 1 := by
        refine ⟨m - 1, ?_⟩
        have : 0 < m := lt_of_lt_of_le (by simp) hm
        omega
      simp only [replaceAllFuel]
      by_cases h : pat ≠ [] ∧ leadsWith pat (c :: rest) = true
      · rw [if_pos h, if_pos h]
        congr 1
        have hp : 0 < pat.length := List.length_pos.mpr h.1
        have hlen : ((c :: rest).drop pat.length).length ≤ rest.length := by
          simp only [List.length_drop, List.length_cons]
          omega
        exact ih _ _ (le_trans hlen (Nat.succ_le_succ_iff.mp hn))
          (le_trans hlen (Nat.succ_le_succ_iff.mp hm))
      · rw [if_neg h, if_neg h]
        congr 1
        exact ih _ _ (Nat.succ_le_succ_iff.mp hn) (Nat.succ_le_succ_iff.mp hm)

theorem listReplaceAll_nil (pat repl : List Char) :
    listReplaceAll pat repl [] = [] := rfl

theorem replaceAllFuel_empty_pat (repl : List Char) :
    ∀ n s, replaceAllFuel [] repl n s = s := by
  intro n
  induction n with
  | zero => intro s; cases s <;> rfl
  | succ n ih =>
    intro s
    cases s with
    | nil => rfl
    | cons c rest =>
      simp only [replaceAllFuel]
      rw [if_neg (by simp)]
      rw [ih]

theorem listReplaceAll_empty_pat (repl s : List Char) :
    listReplaceAll [] repl s = s := replaceAllFuel_empty_pat repl s.length s

theorem listReplaceAll_matchStep (pat repl t : List Char) (hp : pat ≠ []) :
    listReplaceAll pat repl (pat ++ t) = repl ++ listReplaceAll pat repl t := by
  obtain ⟨a, p, rfl⟩ : ∃ a p, pat = a :: p := by
    cases pat with
    | nil => exact absurd rfl hp
    | cons a p => exact ⟨a, p, rfl⟩
  have hc : ((a :: p) ≠ [] ∧ leadsWith (a :: p) ((a :: p) ++ t) = true) :=
    ⟨by simp, (leadsWith_iff _ _).mpr ⟨t, rfl⟩⟩
  show replaceAllFuel (a :: p) repl ((a :: p) ++ t).length ((a :: p) ++ t) = _
  rw [show ((a :: p) ++ t) = a :: (p ++ t) from rfl]
  rw [show (a :: (p ++ t)).length = (p ++ t).length + 1 from by simp]
  simp only [replaceAllFuel]
  rw [if_pos (by simpa using hc)]
  congr 1
  rw [show (a :: (p ++ t)).drop (a :: p).length = t from List.drop_left (a :: p) t]
  exact replaceAllFuel_irrel _ _ _ _ _ (by simp only [List.length_append]; omega) le_rfl

theorem listReplaceAll_skip (pat repl : List Char) (c : Char) (s : List Char)
    (h : ∀ t, c :: s ≠ pat ++ t) :
    listReplaceAll pat repl (c :: s) = c :: listReplaceAll pat repl s := by
  show replaceAllFuel pat repl (c :: s).length (c :: s) = _
  rw [show (c :: s).length = s.length + 1 from rfl]
  simp only [replaceAllFuel]
  rw [if_neg]
  · rfl
  · rintro ⟨_, hlw⟩
    obtain ⟨t, ht⟩ := (leadsWith_iff _ _).mp hlw
    exact h t ht

theorem no_decomp_of_head_ne {a b : Char} {p s : List Char} (hne : b ≠ a) :
    ∀ t, b :: s ≠ (a :: p) ++ t := by
  intro t h
  simp only [List.cons_append, List.cons.injEq] at h
  exact hne h.1

theorem listReplaceAll_pass (a : Char) (p repl u x : List Char)
    (h : ∀ c ∈ u, c ≠ a) :
    listReplaceAll (a :: p) repl (u ++ x) = u ++ listReplaceAll (a :: p) repl x := by
  induction u with
  | nil => rfl
  | cons c u ih =>
    have hc : c ≠ a := h c (by simp)
    rw [List.cons_append, listReplaceAll_skip _ _ _ _ (no_decomp_of_head_ne hc),
        ih (fun d hd => h d (by simp [hd]))]
    rfl

theorem takeWhile_all (f : Char → Bool) (u x : List Char)
    (h : ∀ c ∈ u, f c = true) :
    (u ++ x).takeWhile f = u ++ x.takeWhile f := by
  induction u with
  | nil => rfl
  | cons c u ih =>
    rw [List.cons_append, List.takeWhile_cons, if_pos (h c (by simp)),
        ih (fun d hd => h d (by simp [hd])), List.cons_append]

theorem dropWhile_all (f : Char → Bool) (u x : List Char)
    (h : ∀ c ∈ u, f c = true) :
    (u ++ x).dropWhile f = x.dropWhile f := by
  induction u with
  | nil => rfl
  | cons c u ih =>
    rw [List.cons_append, List.dropWhile_cons, if_pos (h c (by simp)),
        ih (fun d hd => h d (by simp [hd]))]

theorem takeWhile_listReplaceAll (f : Char → Bool) (ph : Char) (pt : List Char)
    (qh : Char) (qt : List Char) (hph : f ph = false) (hqh : f qh = false) :
    ∀ s : List Char,
      (listReplaceAll (ph :: pt) (qh :: qt) s).takeWhile f = s.takeWhile f := by
  intro s
  induction s with
  | nil => rfl
  | cons c rest ih =>
    by_cases h : ∃ u, c :: rest = (ph :: pt) ++ u
    · obtain ⟨u, hu⟩ := h
      rw [hu, listReplaceAll_matchStep _ _ _ (by simp)]
      rw [show ((qh :: qt) ++ listReplaceAll (ph :: pt) (qh :: qt) u)
            = qh :: (qt ++ listReplaceAll (ph :: pt) (qh :: qt) u) from rfl]
      rw [show ((ph :: pt) ++ u) = ph :: (pt ++ u) from rfl]
      rw [List.takeWhile_cons, List.takeWhile_cons,
          if_neg (by simp [hqh]), if_neg (by simp [hph])]
    · push_neg at h
      rw [listReplaceAll_skip _ _ _ _ h]
      rw [List.takeWhile_cons, List.takeWhile_cons]
      by_cases hc : f c = true
      · rw [if_pos hc, if_pos hc, ih]
      · rw [if_neg hc, if_neg hc]

theorem decomp_iff_takeWhile (f : Char → Bool) (p s : List Char)
    (hp : ∀ a ∈ p, f a = true) :
    (∃ t, s = p ++ t) ↔ (∃ t, s.takeWhile f = p ++ t) := by
  constructor
  · rintro ⟨t, rfl⟩
    exact ⟨t.takeWhile f, takeWhile_all f p t hp⟩
  · rintro ⟨t, ht⟩
    refine ⟨t ++ s.dropWhile f, ?_⟩
    conv_lhs => rw [← List.takeWhile_append_dropWhile f s]
    rw [ht, List.append_assoc]

theorem no_decomp_listReplaceAll (f : Char → Bool) (p1 : List Char)
    (ph : Char) (pt : List Char) (qh : Char) (qt : List Char)
    (hp1 : ∀ a ∈ p1, f a = true) (hph : f ph = false) (hqh : f qh = false)
    (s : List Char) (h : ¬ ∃ t, s = p1 ++ t) :
    ¬ ∃ t, listReplaceAll (ph :: pt) (qh :: qt) s = p1 ++ t := by
  intro hc
  apply h
  rw [decomp_iff_takeWhile f p1 s hp1]
  rw [decomp_iff_takeWhile f p1 _ hp1] at hc
  rwa [takeWhile_listReplaceAll f ph pt qh qt hph hqh s] at hc

theorem listReplaceAll_comm_of_classes (f : Char → Bool)
    (p1 q1 p2 q2 : List Char)
    (hp1 : ∀ c ∈ p1, f c = true) (hq1 : ∀ c ∈ q1, f c = true)
    (hp2 : ∀ c ∈ p2, f c = false) (hq2 : ∀ c ∈ q2, f c = false)
    (np1 : p1 ≠ []) (nq1 : q1 ≠ []) (np2 : p2 ≠ []) (nq2 : q2 ≠ []) :
    ∀ s, listReplaceAll p2 q2 (listReplaceAll p1 q1 s)
      = listReplaceAll p1 q1 (listReplaceAll p2 q2 s) := by
  obtain ⟨a1, t1, rfl⟩ : ∃ a t, p1 = a :: t := by
    cases p1 with
    | nil => exact absurd rfl np1
    | cons a t => exact ⟨a, t, rfl⟩
  obtain ⟨b1, u1, rfl⟩ : ∃ a t, q1 = a :: t := by
    cases q1 with
    | nil => exact absurd rfl nq1
    | cons a t => exact ⟨a, t, rfl⟩
  obtain ⟨a2, t2, rfl⟩ : ∃ a t, p2 = a :: t := by
    cases p2 with
    | nil => exact absurd rfl np2
    | cons a t => exact ⟨a, t, rfl⟩
  obtain ⟨b2, u2, rfl⟩ : ∃ a t, q2 = a :: t := by
    cases q2 with
    | nil => exact absurd rfl nq2
    | cons a t => exact ⟨a, t, rfl⟩
  have ha1 : f a1 = true := hp1 _ (by simp)
  have hb1 : f b1 = true := hq1 _ (by simp)
  have ha2 : f a2 = false := hp2 _ (by simp)
  have hb2 : f b2 = false := hq2 _ (by simp)
  suffices H : ∀ n (s : List Char), s.length ≤ n →
      listReplaceAll (a2 :: t2) (b2 :: u2) (listReplaceAll (a1 :: t1) (b1 :: u1) s)
        = listReplaceAll (a1 :: t1) (b1 :: u1)
            (listReplaceAll (a2 :: t2) (b2 :: u2) s) by
    intro s
    exact H s.length s le_rfl
  intro n
  induction n with
  | zero =>
    intro s hs
    have : s = [] := List.eq_nil_of_length_eq_zero (Nat.le_zero.mp hs)
    subst this
    rfl
  | succ n ih =>
    intro s hs
    cases s with
    | nil => rfl
    | cons c rest =>
      by_cases h1 : ∃ u, c :: rest = (a1 :: t1) ++ u
      · obtain ⟨u, hu⟩ := h1
        have hulen : u.length ≤ n := by
          have := congrArg List.length hu
          simp only [List.length_cons, List.length_append] at this
          simp only [List.length_cons] at hs
          omega
        rw [hu]
        rw [listReplaceAll_matchStep _ _ _ (by simp)]
        rw [listReplaceAll_pass a2 t2 (b2 :: u2) (b1 :: u1) _
              (fun d hd => by
                have := hq1 d hd
                intro hda; rw [hda] at this; rw [this] at ha2; exact absurd ha2 (by simp))]
        rw [listReplaceAll_pass a2 t2 (b2 :: u2) (a1 :: t1) u
              (fun d hd => by
                have := hp1 d hd
                intro hda; rw [hda] at this; rw [this] at ha2; exact absurd ha2 (by simp))]
        rw [listReplaceAll_matchStep _ _ _ (by simp)]
        rw [ih u hulen]
      · by_cases h2 : ∃ u, c :: rest = (a2 :: t2) ++ u
        · obtain ⟨u, hu⟩ := h2
          have hulen : u.length ≤ n := by
            have := congrArg List.length hu
            simp only [List.length_cons, List.length_append] at this
            simp only [List.length_cons] at hs
            omega
          rw [hu]
          rw [listReplaceAll_matchStep _ _ _ (by simp)]
          rw [listReplaceAll_pass a1 t1 (b1 :: u1) (b2 :: u2) _
                (fun d hd => by
                  have := hq2 d hd
                  intro hda; rw [hda] at this; rw [this] at ha1; exact absurd ha1 (by simp))]
          rw [listReplaceAll_pass a1 t1 (b1 :: u1) (a2 :: t2) u
                (fun d hd => by
                  have := hp2 d hd
                  intro hda; rw [hda] at this; rw [this] at ha1; exact absurd ha1 (by simp))]
          rw [listReplaceAll_matchStep _ _ _ (by simp)]
          rw [ih u hulen]
        · have hskip1 : listReplaceAll (a1 :: t1) (b1 :: u1) (c :: rest)
              = c :: listReplaceAll (a1 :: t1) (b1 :: u1) rest :=
            listReplaceAll_skip _ _ _ _ (by push_neg at h1; exact h1)
          have hskip2 : listReplaceAll (a2 :: t2) (b2 :: u2) (c :: rest)
              = c :: listReplaceAll (a2 :: t2) (b2 :: u2) rest :=
            listReplaceAll_skip _ _ _ _ (by push_neg at h2; exact h2)
          have hmiss2 : ¬ ∃ t, listReplaceAll (a1 :: t1) (b1 :: u1) (c :: rest)
              = (a2 :: t2) ++ t := by
            refine no_decomp_listReplaceAll (fun d => !f d) (a2 :: t2) a1 t1 b1 u1
              (fun d hd => by simp [hp2 d hd]) (by simp [ha1]) (by simp [hb1])
              (c :: rest) h2
          have hmiss1 : ¬ ∃ t, listReplaceAll (a2 :: t2) (b2 :: u2) (c :: rest)
              = (a1 :: t1) ++ t := by
            refine no_decomp_listReplaceAll f (a1 :: t1) a2 t2 b2 u2
              hp1 ha2 hb2 (c :: rest) h1
          rw [hskip1] at hmiss2
          rw [hskip2] at hmiss1
          rw [hskip1, hskip2]
          rw [listReplaceAll_skip _ _ _ _ (by push_neg at hmiss2; exact hmiss2)]
          rw [listReplaceAll_skip _ _ _ _ (by push_neg at hmiss1; exact hmiss1)]
          rw [ih rest (by simp only [List.length_cons] at hs; omega)]

/-! ### The rule fold of apply_replacements -/

theorem apply_replacements_nil (text command_name locale : List Char) :
    apply_replacements text command_name [] locale = text := rfl

theorem apply_replacements_cons (text command_name locale : List Char)
    (rule : ReplacementRule) (rules : List ReplacementRule) :
    apply_replacements text command_name (rule :: rules) locale
      = apply_replacements (applyRuleStep (toLowerStr command_name) locale text rule)
          command_name rules locale := by
  unfold apply_replacements applyRuleStep ruleApplies
  simp only [List.foldl_cons]
  congr 1
  by_cases h1 : rule.commands = []
  · by_cases h2 : rule.locale = locale
    · simp [h1, h2]
    · simp [h1, h2]
  · by_cases h3 : toLowerStr command_name ∈ rule.commands
    · by_cases h2 : rule.locale = locale <;> simp [h1, h2, h3]
    · simp [h1, h3]

theorem apply_replacements_eq_foldl (text command_name : List Char)
    (rules : List ReplacementRule) (locale : List Char) :
    apply_replacements text command_name rules locale
      = rules.foldl (applyRuleStep (toLowerStr command_name) locale) text := by
  induction rules generalizing text with
  | nil => rfl
  | cons rule rules ih =>
    rw [apply_replacements_cons, ih, List.foldl_cons]

/-! ### Properties of the stream-transformer loop -/

theorem tokioNextLineE_false (s : List Char) :
    tokioNextLineE false s = .ok (tokioNextLine s) := by
  by_cases h : s.dropWhile notNL ≠ [] <;> simp [tokioNextLineE, h]

theorem tokioNextLine_of_ne_nil {s : List Char} (h : s ≠ []) :
    ∃ line rest, tokioNextLine s = some (line, rest) := by
  unfold tokioNextLine
  rw [if_neg h]
  cases s.dropWhile notNL with
  | nil => exact ⟨_, _, rfl⟩
  | cons x r => exact ⟨_, _, rfl⟩

theorem length_dropWhile_le_self (p : Char → Bool) (l : List Char) :
    (l.dropWhile p).length ≤ l.length := by
  induction l with
  | nil => simp
  | cons a l ih =>
    rw [List.dropWhile_cons]
    by_cases h : p a = true
    · rw [if_pos h]; simp only [List.length_cons]; omega
    · rw [if_neg h]

theorem tokioNextLine_shrink {s line rest : List Char}
    (h : tokioNextLine s = some (line, rest)) : rest.length < s.length := by
  by_cases hs : s = []
  · subst hs; simp [tokioNextLine] at h
  · unfold tokioNextLine at h
    rw [if_neg hs] at h
    cases hd : s.dropWhile notNL with
    | nil =>
      rw [hd] at h
      simp only [Option.some.injEq, Prod.mk.injEq] at h
      rw [← h.2]
      exact List.length_pos.mpr hs
    | cons x r =>
      rw [hd] at h
      simp only [Option.some.injEq, Prod.mk.injEq] at h
      have hle : (s.dropWhile notNL).length ≤ s.length :=
        length_dropWhile_le_self notNL s
      rw [hd] at hle
      simp only [List.length_cons] at hle
      rw [← h.2]
      omega

theorem tokioNextLineE_shrink {readErr : Bool} {s line rest : List Char}
    (h : tokioNextLineE readErr s = .ok (some (line, rest))) :
    tokioNextLine s = some (line, rest) := by
  unfold tokioNextLineE at h
  by_cases hd : s.dropWhile notNL ≠ []
  · rw [if_pos hd] at h
    simpa using h
  · rw [if_neg hd] at h
    cases readErr with
    | false => simpa using h
    | true => simp at h

theorem psRun_irrel (command_name : List Char) (rules : List ReplacementRule)
    (locale : List Char) (readErr : Bool) :
    ∀ n m (cap : Option Nat) (s : List Char), s.length < n → s.length < m →
      psRun command_name rules locale readErr n cap s
        = psRun command_name rules locale readErr m cap s := by
  intro n
  induction n with
  | zero =>
    intro m cap s hn
    exact absurd hn (Nat.not_lt_zero _)
  | succ n ih =>
    intro m cap s hn hm
    obtain ⟨m', rfl⟩ : ∃ m', m = m' + 1 := ⟨m - 1, by omega⟩
    cases hE : tokioNextLineE readErr s with
    | error e => simp [psRun, hE]
    | ok o =>
      cases o with
      | none => simp [psRun, hE]
      | some lr =>
        obtain ⟨line, rest⟩ := lr
        have hrest : rest.length < s.length :=
          tokioNextLine_shrink (tokioNextLineE_shrink hE)
        cases htw : takeWrite cap with
        | none => simp [psRun, hE, htw]
        | some cap1 =>
          cases htw2 : takeWrite cap1 with
          | none => simp [psRun, hE, htw, htw2]
          | some cap2 =>
            simp only [psRun, hE, htw, htw2]
            rw [ih m' cap2 rest (by omega) (by omega)]

theorem tokioLinesFuel_irrel :
    ∀ n m (s : List Char), s.length ≤ n → s.length ≤ m →
      tokioLinesFuel n s = tokioLinesFuel m s := by
  intro n
  induction n with
  | zero =>
    intro m s hn _
    have hs : s = [] := List.eq_nil_of_length_eq_zero (Nat.le_zero.mp hn)
    subst hs
    cases m <;> simp [tokioLinesFuel, tokioNextLine]
  | succ n ih =>
    intro m s hn hm
    by_cases hs : s = []
    · subst hs
      cases m <;> simp [tokioLinesFuel, tokioNextLine]
    · obtain ⟨m', rfl⟩ : ∃ m', m = m' + 1 := by
        have : 0 < s.length := List.length_pos.mpr hs
        exact ⟨m - 1, by omega⟩
      obtain ⟨line, rest, hN⟩ := tokioNextLine_of_ne_nil hs
      have hrest : rest.length < s.length := tokioNextLine_shrink hN
      simp only [tokioLinesFuel, hN]
      rw [ih m' rest (by omega) (by omega)]

theorem tokioLines_eq_nil {s : List Char} (h : tokioNextLine s = none) :
    tokioLines s = [] := by
  unfold tokioLines
  simp [tokioLinesFuel, h]

theorem tokioLinesFuel_cons (n : Nat) {s line rest : List Char}
    (h : tokioNextLine s = some (line, rest)) :
    tokioLinesFuel (n + 1) s = line :: tokioLinesFuel n rest := by
  simp [tokioLinesFuel, h]

theorem tokioLines_eq_cons {s line rest : List Char}
    (h : tokioNextLine s = some (line, rest)) :
    tokioLines s = line :: tokioLines rest := by
  have hrest : rest.length < s.length := tokioNextLine_shrink h
  obtain ⟨k, hk⟩ : ∃ k, s.length = k + 1 := ⟨s.length - 1, by omega⟩
  unfold tokioLines
  rw [hk, tokioLinesFuel_cons (k + 1) h,
      tokioLinesFuel_irrel (k + 1) (rest.length + 1) rest (by omega) (by omega)]

theorem psRun_succ_end (command_name : List Char) (rules : List ReplacementRule)
    (locale : List Char) (readErr : Bool) (n : Nat) (cap : Option Nat)
    {s : List Char} (h : tokioNextLineE readErr s = .ok none) :
    psRun command_name rules locale readErr (n + 1) cap s
      = ([.atEnd], .ok []) := by
  simp [psRun, h]

theorem psRun_succ_readFail (command_name : List Char) (rules : List ReplacementRule)
    (locale : List Char) (readErr : Bool) (n : Nat) (cap : Option Nat)
    {s : List Char} (h : tokioNextLineE readErr s = .error ()) :
    psRun command_name rules locale readErr (n + 1) cap s
      = ([.readFailed], .error ()) := by
  simp [psRun, h]

theorem psRun_succ_none (command_name : List Char) (rules : List ReplacementRule)
    (locale : List Char) (readErr : Bool) (n : Nat) {s line rest : List Char}
    (h : tokioNextLineE readErr s = .ok (some (line, rest))) :
    psRun command_name rules locale readErr (n + 1) none s
      = (.readLine line
           :: .writeAll (apply_replacements line command_name rules locale)
           :: .writeAll ['\n'] :: .flush
           :: (psRun command_name rules locale readErr n none rest).1,
         (psRun command_name rules locale readErr n none rest).2.map
           (fun out => apply_replacements line command_name rules locale
              ++ '\n' :: out)) := by
  simp [psRun, h, takeWrite]

theorem psRun_succ_wfail0 (command_name : List Char) (rules : List ReplacementRule)
    (locale : List Char) (readErr : Bool) (n : Nat) {s line rest : List Char}
    (h : tokioNextLineE readErr s = .ok (some (line, rest))) :
    psRun command_name rules locale readErr (n + 1) (some 0) s
      = ([.readLine line, .writeFailed], .error ()) := by
  simp [psRun, h, takeWrite]

theorem psRun_succ_wfail1 (command_name : List Char) (rules : List ReplacementRule)
    (locale : List Char) (readErr : Bool) (n : Nat) {s line rest : List Char}
    (h : tokioNextLineE readErr s = .ok (some (line, rest))) :
    psRun command_name rules locale readErr (n + 1) (some 1) s
      = ([.readLine line,
          .writeAll (apply_replacements line command_name rules locale),
          .writeFailed], .error ()) := by
  simp [psRun, h, takeWrite]

theorem psRun_succ_some (command_name : List Char) (rules : List ReplacementRule)
    (locale : List Char) (readErr : Bool) (n : Nat) (k : Nat)
    {s line rest : List Char}
    (h : tokioNextLineE readErr s = .ok (some (line, rest))) :
    psRun command_name rules locale readErr (n + 1) (some (k + 2)) s
      = (.readLine line
           :: .writeAll (apply_replacements line command_name rules locale)
           :: .writeAll ['\n'] :: .flush
           :: (psRun command_name rules locale readErr n (some k) rest).1,
         (psRun command_name rules locale readErr n (some k) rest).2.map
           (fun out => apply_replacements line command_name rules locale
              ++ '\n' :: out)) := by
  simp [psRun, h, takeWrite]

theorem psRun_ok (command_name : List Char) (rules : List ReplacementRule)
    (locale : List Char) :
    ∀ n (s : List Char), s.length < n →
      psRun command_name rules locale false n none s
        = (((tokioLines s).map (fun line =>
              [StreamOp.readLine line,
               StreamOp.writeAll (apply_replacements line command_name rules locale),
               StreamOp.writeAll ['\n'], StreamOp.flush])).flatten ++ [StreamOp.atEnd],
           .ok (((tokioLines s).map (fun line =>
              apply_replacements line command_name rules locale ++ ['\n'])).flatten)) := by
  intro n
  induction n with
  | zero =>
    intro s hn
    exact absurd hn (Nat.not_lt_zero _)
  | succ n ih =>
    intro s hn
    by_cases hs : s = []
    · subst hs
      rw [psRun_succ_end _ _ _ _ _ _ (by rw [tokioNextLineE_false]; rfl)]
      rw [@tokioLines_eq_nil [] rfl]
      simp
    · obtain ⟨line, rest, hN⟩ := tokioNextLine_of_ne_nil hs
      have hE : tokioNextLineE false s = .ok (some (line, rest)) := by
        rw [tokioNextLineE_false, hN]
      rw [psRun_succ_none _ _ _ _ _ hE]
      rw [ih rest (by have := tokioNextLine_shrink hN; omega)]
      rw [tokioLines_eq_cons hN]
      simp [List.append_assoc, Except.map]

theorem psRun_readErr (command_name : List Char) (rules : List ReplacementRule)
    (locale : List Char) :
    ∀ n (cap : Option Nat) (s : List Char),
      (psRun command_name rules locale true n cap s).2 = .error () := by
  intro n
  induction n with
  | zero => intro cap s; rfl
  | succ n ih =>
    intro cap s
    by_cases hd : s.dropWhile notNL ≠ []
    · have hsne : s ≠ [] := by
        intro hh
        subst hh
        simp at hd
      obtain ⟨line, rest, hN⟩ := tokioNextLine_of_ne_nil hsne
      have hE : tokioNextLineE true s = .ok (some (line, rest)) := by
        unfold tokioNextLineE
        rw [if_pos hd, hN]
      cases cap with
      | none =>
        rw [psRun_succ_none _ _ _ _ _ hE]
        rw [show (psRun command_name rules locale true n none rest).2 = .error ()
              from ih none rest]
        rfl
      | some k =>
        rcases k with _ | _ | k
        · rw [psRun_succ_wfail0 _ _ _ _ _ hE]
        · rw [psRun_succ_wfail1 _ _ _ _ _ hE]
        · rw [psRun_succ_some _ _ _ _ _ k hE]
          rw [show (psRun command_name rules locale true n (some k) rest).2 = .error ()
                from ih (some k) rest]
          rfl
    · have hE : tokioNextLineE true s = .error () := by
        unfold tokioNextLineE
        rw [if_neg hd]
        rfl
      rw [psRun_succ_readFail _ _ _ _ _ _ hE]

theorem psRun_cap (command_name : List Char) (rules : List ReplacementRule)
    (locale : List Char) :
    ∀ n (s : List Char) (k : Nat), s.length < n →
      k < 2 * (tokioLines s).length →
      (psRun command_name rules locale false n (some k) s).2 = .error () := by
  intro n
  induction n with
  | zero =>
    intro s k hn
    exact absurd hn (Nat.not_lt_zero _)
  | succ n ih =>
    intro s k hn hk
    by_cases hs : s = []
    · subst hs
      rw [@tokioLines_eq_nil [] rfl] at hk
      simp at hk
    · obtain ⟨line, rest, hN⟩ := tokioNextLine_of_ne_nil hs
      have hE : tokioNextLineE false s = .ok (some (line, rest)) := by
        rw [tokioNextLineE_false, hN]
      rw [tokioLines_eq_cons hN] at hk
      rcases k with _ | _ | k
      · rw [psRun_succ_wfail0 _ _ _ _ _ hE]
      · rw [psRun_succ_wfail1 _ _ _ _ _ hE]
      · rw [psRun_succ_some _ _ _ _ _ k hE]
        rw [show (psRun command_name rules locale false n (some k) rest).2 = .error ()
              from ih rest k (by have := tokioNextLine_shrink hN; omega)
                (by simp only [List.length_cons] at hk; omega)]
        rfl

theorem notNL_of_ne (c : Char) (h : c ≠ '\n') : notNL c = true := by
  simp [notNL, h]

theorem tokioNextLine_terminated (a rest : List Char) (h : '\n' ∉ a) :
    tokioNextLine (a ++ '\n' :: rest) = some (stripCR a, rest) := by
  have hall : ∀ c ∈ a, notNL c = true := by
    intro c hc
    refine notNL_of_ne c ?_
    intro hcn
    exact h (hcn ▸ hc)
  have hne : a ++ '\n' :: rest ≠ [] := by simp
  have htake : (a ++ '\n' :: rest).takeWhile notNL = a := by
    rw [takeWhile_all notNL a _ hall, List.takeWhile_cons,
        if_neg (by simp [notNL])]
    simp
  have hdropw : (a ++ '\n' :: rest).dropWhile notNL = '\n' :: rest := by
    rw [dropWhile_all notNL a _ hall, List.dropWhile_cons,
        if_neg (by simp [notNL])]
  unfold tokioNextLine
  rw [if_neg hne]
  simp only [htake, hdropw]

theorem tokioNextLine_unterminated (a : List Char) (hne : a ≠ [])
    (h : '\n' ∉ a) : tokioNextLine a = some (a, []) := by
  have hall : ∀ c ∈ a, notNL c = true := by
    intro c hc
    refine notNL_of_ne c ?_
    intro hcn
    exact h (hcn ▸ hc)
  have htake : a.takeWhile notNL = a := by
    have := takeWhile_all notNL a [] hall
    simpa using this
  have hdropw : a.dropWhile notNL = [] := by
    have := dropWhile_all notNL a [] hall
    simpa using this
  unfold tokioNextLine
  rw [if_neg hne]
  simp only [htake, hdropw]

theorem stripCR_concat_cr (l : List Char) : stripCR (l ++ ['\r']) = l := by
  unfold stripCR
  rw [if_pos (List.getLast?_concat l)]
  exact List.dropLast_concat

theorem stripCR_no_cr (l : List Char) (h : l.getLast? ≠ some '\r') :
    stripCR l = l := by
  unfold stripCR
  rw [if_neg h]

theorem tokioLines_crlf (l : List Char) (h : '\n' ∉ l) :
    tokioLines (l ++ ['\r', '\n']) = [l] := by
  have h2 : '\n' ∉ l ++ ['\r'] := by
    intro hc
    rcases List.mem_append.mp hc with hc | hc
    · exact h hc
    · simp at hc
  have hstep : tokioNextLine ((l ++ ['\r']) ++ '\n' :: []) = some (stripCR (l ++ ['\r']), []) :=
    tokioNextLine_terminated (l ++ ['\r']) [] h2
  rw [show l ++ ['\r', '\n'] = (l ++ ['\r']) ++ '\n' :: [] from by simp]
  rw [tokioLines_eq_cons hstep, stripCR_concat_cr]
  rw [@tokioLines_eq_nil [] rfl]

theorem tokioLines_lf (l : List Char) (h : '\n' ∉ l)
    (hcr : l.getLast? ≠ some '\r') :
    tokioLines (l ++ ['\n']) = [l] := by
  have hstep : tokioNextLine (l ++ '\n' :: []) = some (stripCR l, []) :=
    tokioNextLine_terminated l [] h
  rw [show l ++ ['\n'] = l ++ '\n' :: [] from rfl]
  rw [tokioLines_eq_cons hstep, stripCR_no_cr l hcr]
  rw [@tokioLines_eq_nil [] rfl]

/-! ### The claims -/

/-- Claim C1: for every child that was spawned successfully, a normal exit
with code N is reported as N and signal termination (no numeric code) is
reported as 1; the reported value is determined solely by the child's wait
status — the outcomes of the stdout, stderr and stdin drain tasks are
observed and discarded and never change the returned code. -/
theorem exit_code_fidelity (command : List (List Char)) (beh : ChildBehavior)
    (hcmd : command ≠ []) (hspawn : beh.spawnResult = .ok ()) :
    (∀ n : Int, beh.waitResult = .ok (.exited n) →
      ∃ o : ExecOutcome, execute_command command beh = .ok o ∧ o.exitCode = n)
    ∧ (beh.waitResult = .ok .signaled →
      ∃ o : ExecOutcome, execute_command command beh = .ok o ∧ o.exitCode = 1)
    ∧ (∀ (o1 o2 : TaskOutcome) (i : Option TaskOutcome),
        execute_command command
          { beh with stdoutDrain := o1, stderrDrain := o2, stdinDrain := i }
          = execute_command command beh) := by
  refine ⟨?_, ?_, ?_⟩
  · intro n hw
    simp only [execute_command, if_neg hcmd, hspawn, hw]
    exact ⟨_, rfl, rfl⟩
  · intro hw
    simp only [execute_command, if_neg hcmd, hspawn, hw]
    exact ⟨_, rfl, rfl⟩
  · intro o1 o2 i
    cases beh
    rfl

theorem exit_code_fidelity_witness :
    ∃ o : ExecOutcome,
      execute_command [['l', 's']]
        ⟨.ok (), .ok (.exited 7), .succeeded, .failed, none⟩ = .ok o
      ∧ o.exitCode = 7 :=
  (exit_code_fidelity [['l', 's']]
    ⟨.ok (), .ok (.exited 7), .succeeded, .failed, none⟩
    (by decide) rfl).1 7 rfl

/-- Claim C2: the rule fold applies a rule exactly when its command filter is
empty or contains the lowercased command name and its locale equals the
requested locale (any other rule leaves the text unchanged at its step), and
the result depends on the command name only through its lowercasing, so
command-name matching is case-insensitive. -/
theorem rule_filter_iff (text command_name : List Char)
    (rules : List ReplacementRule) (locale : List Char) :
    apply_replacements text command_name rules locale
      = rules.foldl (applyRuleStep (toLowerStr command_name) locale) text
    ∧ ∀ other : List Char,
        toLowerStr other = toLowerStr command_name →
        apply_replacements text other rules locale
          = apply_replacements text command_name rules locale := by
  refine ⟨apply_replacements_eq_foldl text command_name rules locale, ?_⟩
  intro other h
  rw [apply_replacements_eq_foldl, apply_replacements_eq_foldl, h]

theorem rule_filter_iff_witness :
    apply_replacements "import this".data "Python3".data
      [⟨"import".data, "導入".data, "default".data, ["python3".data]⟩]
      "default".data
      = apply_replacements "import this".data "python3".data
          [⟨"import".data, "導入".data, "default".data, ["python3".data]⟩]
          "default".data :=
  (rule_filter_iff "import this".data "python3".data
    [⟨"import".data, "導入".data, "default".data, ["python3".data]⟩]
    "default".data).2 "Python3".data (by decide)

/-- Claim C3: when no rule is applicable — the rule set is empty, or every
rule is skipped by a command-filter mismatch or a locale mismatch — the line
passes through unchanged. -/
theorem no_applicable_identity (text command_name : List Char)
    (rules : List ReplacementRule) (locale : List Char)
    (h : ∀ rule ∈ rules, ¬ ruleApplies rule (toLowerStr command_name) locale) :
    apply_replacements text command_name rules locale = text := by
  rw [apply_replacements_eq_foldl]
  induction rules generalizing text with
  | nil => rfl
  | cons r rs ih =>
    rw [List.foldl_cons,
        show applyRuleStep (toLowerStr command_name) locale text r = text from by
          unfold applyRuleStep
          rw [if_neg (h r (by simp))]]
    exact ih text (fun rule hr => h rule (by simp [hr]))

theorem no_applicable_identity_witness :
    apply_replacements "hello foo".data "bash".data
      [⟨"foo".data, "bar".data, "ja".data, []⟩,
       ⟨"foo".data, "bar".data, "default".data, ["python3".data]⟩]
      "default".data = "hello foo".data :=
  no_applicable_identity "hello foo".data "bash".data
    [⟨"foo".data, "bar".data, "ja".data, []⟩,
     ⟨"foo".data, "bar".data, "default".data, ["python3".data]⟩]
    "default".data (by decide)

/-- Claim C4: the applicable rules are applied strictly in rule-set order and
each rule operates on the text produced by the previous one: the fold over an
appended rule list factors through the intermediate text, a cons peels off
exactly one step, and the whole computation is the left fold of the per-rule
step over the ordered rule list starting from the input line. -/
theorem sequential_fold (text command_name locale : List Char)
    (rule : ReplacementRule) (rules rules1 rules2 : List ReplacementRule) :
    apply_replacements text command_name (rules1 ++ rules2) locale
      = apply_replacements
          (apply_replacements text command_name rules1 locale)
          command_name rules2 locale
    ∧ apply_replacements text command_name (rule :: rules) locale
      = apply_replacements
          (applyRuleStep (toLowerStr command_name) locale text rule)
          command_name rules locale
    ∧ apply_replacements text command_name rules locale
      = rules.foldl (applyRuleStep (toLowerStr command_name) locale) text := by
  refine ⟨?_, apply_replacements_cons text command_name locale rule rules,
    apply_replacements_eq_foldl text command_name rules locale⟩
  rw [apply_replacements_eq_foldl, apply_replacements_eq_foldl,
      apply_replacements_eq_foldl, List.foldl_append]

/-- Claim C5: a single applicable rule replaces all leftmost non-overlapping
matches of its pattern, not only the first: the single-rule run equals the
replace-all primitive, that primitive keeps replacing after consuming a
match, and the concrete example "foo baz foo" becomes "bar baz bar". -/
theorem replace_all_matches :
    apply_replacements "foo baz foo".data "bash".data
      [⟨"foo".data, "bar".data, "default".data, []⟩] "default".data
      = "bar baz bar".data
    ∧ (∀ (rule : ReplacementRule) (text command_name locale : List Char),
        ruleApplies rule (toLowerStr command_name) locale →
        apply_replacements text command_name [rule] locale
          = listReplaceAll rule.pattern rule.replacement text)
    ∧ ∀ (pat repl t : List Char), pat ≠ [] →
        listReplaceAll pat repl (pat ++ t) = repl ++ listReplaceAll pat repl t := by
  refine ⟨by decide, ?_,
    fun pat repl t hp => listReplaceAll_matchStep pat repl t hp⟩
  intro rule text command_name locale h
  rw [apply_replacements_cons, apply_replacements_nil]
  unfold applyRuleStep
  rw [if_pos h]

theorem replace_all_matches_witness :
    listReplaceAll "ab".data "z".data ("ab".data ++ "cab".data)
      = "z".data ++ listReplaceAll "ab".data "z".data "cab".data :=
  replace_all_matches.2.2 "ab".data "z".data "cab".data (by decide)

/-- Claim C6 as stated is false on the code: the two rules below are both
applicable, and their patterns are disjoint and non-overlapping — neither
rule's pattern occurs in the text the other consumes (its pattern) or
produces (its replacement) — yet the two application orders give different
final texts on "aba": deleting "b" first joins the surrounding characters
into a fresh "aa" match. -/
theorem independent_rules_not_commutative :
    (apply_replacements "aba".data "sh".data
        [⟨"aa".data, "x".data, "default".data, []⟩,
         ⟨"b".data, [], "default".data, []⟩] "default".data
      ≠ apply_replacements "aba".data "sh".data
        [⟨"b".data, [], "default".data, []⟩,
         ⟨"aa".data, "x".data, "default".data, []⟩] "default".data)
    ∧ occursIn "aa".data "b".data = false
    ∧ occursIn "aa".data [] = false
    ∧ occursIn "b".data "aa".data = false
    ∧ occursIn "b".data "x".data = false
    ∧ ruleApplies ⟨"aa".data, "x".data, "default".data, []⟩
        (toLowerStr "sh".data) "default".data
    ∧ ruleApplies ⟨"b".data, [], "default".data, []⟩
        (toLowerStr "sh".data) "default".data := by
  decide

/-- Claim C6, amended: two applicable rules commute when they are independent
in the stronger sense that some character class separates them — every
character of rule 1's pattern and replacement is inside the class, every
character of rule 2's pattern and replacement is outside it — and all four
texts are non-empty (the counterexample shows that an empty replacement,
i.e. a deletion, can join the surroundings of a consumed match into a fresh
match for the other rule, so disjointness of the patterns alone is not
enough). -/
theorem independent_rules_commute (f : Char → Bool) (r1 r2 : ReplacementRule)
    (text command_name locale : List Char)
    (h1 : ruleApplies r1 (toLowerStr command_name) locale)
    (h2 : ruleApplies r2 (toLowerStr command_name) locale)
    (hp1 : ∀ c ∈ r1.pattern, f c = true)
    (hq1 : ∀ c ∈ r1.replacement, f c = true)
    (hp2 : ∀ c ∈ r2.pattern, f c = false)
    (hq2 : ∀ c ∈ r2.replacement, f c = false)
    (np1 : r1.pattern ≠ []) (nq1 : r1.replacement ≠ [])
    (np2 : r2.pattern ≠ []) (nq2 : r2.replacement ≠ []) :
    apply_replacements text command_name [r1, r2] locale
      = apply_replacements text command_name [r2, r1] locale := by
  have e1 : ∀ res, applyRuleStep (toLowerStr command_name) locale res r1
      = listReplaceAll r1.pattern r1.replacement res := by
    intro res
    unfold applyRuleStep
    rw [if_pos h1]
  have e2 : ∀ res, applyRuleStep (toLowerStr command_name) locale res r2
      = listReplaceAll r2.pattern r2.replacement res := by
    intro res
    unfold applyRuleStep
    rw [if_pos h2]
  simp only [apply_replacements_cons, apply_replacements_nil, e1, e2]
  exact listReplaceAll_comm_of_classes f r1.pattern r1.replacement
    r2.pattern r2.replacement hp1 hq1 hp2 hq2 np1 nq1 np2 nq2 text

theorem independent_rules_commute_witness :
    apply_replacements "ab".data "sh".data
      [⟨"a".data, "aa".data, "default".data, []⟩,
       ⟨"b".data, "bb".data, "default".data, []⟩] "default".data
      = apply_replacements "ab".data "sh".data
        [⟨"b".data, "bb".data, "default".data, []⟩,
         ⟨"a".data, "aa".data, "default".data, []⟩] "default".data :=
  independent_rules_commute (fun c => c == 'a')
    ⟨"a".data, "aa".data, "default".data, []⟩
    ⟨"b".data, "bb".data, "default".data, []⟩
    "ab".data "sh".data "default".data
    (by decide) (by decide) (by decide) (by decide) (by decide) (by decide)
    (by decide) (by decide) (by decide) (by decide)

/-- Claim C7: a non-empty command is classified interactive exactly when the
lowercased basename of its first element is one of python, python3, ipython,
bash, sh, cmd, zsh; an interactive command is spawned shell-wrapped as
sh -c with the arguments joined by single spaces and no quoting and gets a
stdin-forwarding task; a non-interactive command is executed directly with
its argument vector and gets no stdin-forwarding task.  The classification
depends on the command only through the lowercased basename, so the match is
case-insensitive. -/
theorem interactive_detection (command : List (List Char)) (beh : ChildBehavior)
    (o : ExecOutcome) (hcmd : command ≠ [])
    (hrun : execute_command command beh = .ok o) :
    (isInteractive command = true ↔
      toLowerStr (commandName command) ∈
        ["python".data, "python3".data, "ipython".data, "bash".data, "sh".data,
         "cmd".data, "zsh".data])
    ∧ (isInteractive command = true →
        o.spawnSpec
            = .shellWrapped "sh".data ["-c".data, List.intercalate [' '] command]
          ∧ o.stdinForwarder = true)
    ∧ (isInteractive command = false →
        o.spawnSpec = .direct (command.headD []) command.tail
          ∧ o.stdinForwarder = false)
    ∧ ∀ command' : List (List Char),
        toLowerStr (commandName command') = toLowerStr (commandName command) →
        isInteractive command' = isInteractive command := by
  have hiff : isInteractive command = true ↔
      toLowerStr (commandName command) ∈
        ["python".data, "python3".data, "ipython".data, "bash".data, "sh".data,
         "cmd".data, "zsh".data] := by
    show interactive_commands.any
        (fun cmd => cmd == toLowerStr (commandName command)) = true ↔
      toLowerStr (commandName command) ∈ interactive_commands
    rw [List.any_eq_true]
    constructor
    · rintro ⟨c, hc, hcx⟩
      rw [show c = toLowerStr (commandName command) from by simpa using hcx] at hc
      exact hc
    · intro hX
      exact ⟨_, hX, by simp⟩
  have hinv : ∀ command' : List (List Char),
      toLowerStr (commandName command') = toLowerStr (commandName command) →
      isInteractive command' = isInteractive command := by
    intro command' hc'
    unfold isInteractive
    rw [hc']
  rcases hs : beh.spawnResult with e | u
  · simp only [execute_command, if_neg hcmd, hs] at hrun
    exact Except.noConfusion hrun
  · rcases hw : beh.waitResult with e | status
    · simp only [execute_command, if_neg hcmd, hs, hw] at hrun
      exact Except.noConfusion hrun
    · simp only [execute_command, if_neg hcmd, hs, hw, Except.ok.injEq] at hrun
      refine ⟨hiff, ?_, ?_, hinv⟩
      · intro hint
        rw [← hrun]
        simp [hint, stdinIsSome]
      · intro hint
        rw [← hrun]
        simp [hint, stdinIsSome]

theorem interactive_detection_witness :
    isInteractive ["bash".data] = true ↔
      toLowerStr (commandName ["bash".data]) ∈
        ["python".data, "python3".data, "ipython".data, "bash".data, "sh".data,
         "cmd".data, "zsh".data] :=
  (interactive_detection ["bash".data]
    ⟨.ok (), .ok (.exited 0), .succeeded, .succeeded, some .succeeded⟩
    ⟨.shellWrapped "sh".data ["-c".data, "bash".data], true, 0⟩
    (by decide) rfl).1

/-- Claim C9: a rule whose pattern fails to compile is dropped while loading
continues, so on a parsed configuration list load_config succeeds and
returns exactly the successfully compiled rules in configuration order; it
fails exactly for an unreadable file or a root that is not a sequence. -/
theorem load_config_drops_invalid (compile : List Char → Option (List Char)) :
    (∀ configs : List ReplacementConfig,
      load_config compile (.parsed configs)
        = some (configs.filterMap (ReplacementRule.from_config compile)))
    ∧ ∀ src : ConfigSource,
        (load_config compile src = none ↔ (src = .unreadable ∨ src = .badRoot)) := by
  constructor
  · intro configs
    simp only [load_config, Option.some.injEq]
    induction configs with
    | nil => rfl
    | cons c cs ih =>
      simp only [loadRules, List.filterMap_cons]
      cases h : ReplacementRule.from_config compile c <;> simp [h, ih]
  · intro src
    cases src <;> simp [load_config]

/-- Claim C8: the stream transformer splits its input into lines at
line-feed boundaries and processes a final unterminated line like any other
line; for each line it writes the transformed text, then exactly one
newline, then flushes, before reading the next line, and terminates normally
at end of stream; a failing read or a failing write makes it terminate with
an error outcome. -/
theorem stream_transformer_lines (command_name : List Char)
    (rules : List ReplacementRule) (locale : List Char) (source : List Char) :
    process_stream command_name rules locale false none source
      = (((tokioLines source).map (fun line =>
            [StreamOp.readLine line,
             StreamOp.writeAll (apply_replacements line command_name rules locale),
             StreamOp.writeAll ['\n'], StreamOp.flush])).flatten
           ++ [StreamOp.atEnd],
         .ok (((tokioLines source).map (fun line =>
            apply_replacements line command_name rules locale ++ ['\n'])).flatten))
    ∧ (∀ a rest : List Char, '\n' ∉ a →
        tokioLines (a ++ '\n' :: rest) = stripCR a :: tokioLines rest)
    ∧ (∀ a : List Char, a ≠ [] → '\n' ∉ a → tokioLines a = [a])
    ∧ tokioLines ([] : List Char) = []
    ∧ (∀ cap : Option Nat,
        (process_stream command_name rules locale true cap source).2 = .error ())
    ∧ ∀ k : Nat, k < 2 * (tokioLines source).length →
        (process_stream command_name rules locale false (some k) source).2
          = .error () := by
  refine ⟨?_, ?_, ?_, @tokioLines_eq_nil [] rfl, ?_, ?_⟩
  · exact psRun_ok command_name rules locale (source.length + 1) source
      (Nat.lt_succ_self _)
  · intro a rest h
    exact tokioLines_eq_cons (tokioNextLine_terminated a rest h)
  · intro a hne h
    rw [tokioLines_eq_cons (tokioNextLine_unterminated a hne h),
        @tokioLines_eq_nil [] rfl]
  · intro cap
    exact psRun_readErr command_name rules locale (source.length + 1) cap source
  · intro k hk
    exact psRun_cap command_name rules locale (source.length + 1) source k
      (Nat.lt_succ_self _) hk

theorem stream_transformer_lines_witness :
    tokioLines ("hi".data ++ '\n' :: "yo".data)
      = stripCR "hi".data :: tokioLines "yo".data :=
  (stream_transformer_lines "sh".data [] "default".data "x".data).2.1
    "hi".data "yo".data (by decide)

/-- Claim C10: a line terminated by carriage return plus line feed loses the
carriage return before the rules run and is written back with a bare
newline, so even with an empty rule set the output of CRLF-terminated input
is not byte-identical to the input; byte-for-byte identity holds for
LF-terminated lines (without a trailing carriage return). -/
theorem crlf_normalization (line command_name : List Char)
    (rules : List ReplacementRule) (locale : List Char) (h : '\n' ∉ line) :
    ((process_stream command_name rules locale false none
        (line ++ ['\r', '\n'])).2
      = .ok (apply_replacements line command_name rules locale ++ ['\n']))
    ∧ ((process_stream command_name [] locale false none
        (line ++ ['\r', '\n'])).2 = .ok (line ++ ['\n']))
    ∧ line ++ ['\n'] ≠ line ++ ['\r', '\n']
    ∧ (line.getLast? ≠ some '\r' →
        (process_stream command_name [] locale false none (line ++ ['\n'])).2
          = .ok (line ++ ['\n'])) := by
  have hout : ∀ (rs : List ReplacementRule) (src : List Char),
      (process_stream command_name rs locale false none src).2
        = .ok (((tokioLines src).map (fun l =>
            apply_replacements l command_name rs locale ++ ['\n'])).flatten) := by
    intro rs src
    show (psRun command_name rs locale false (src.length + 1) none src).2 = _
    rw [psRun_ok command_name rs locale (src.length + 1) src (Nat.lt_succ_self _)]
  refine ⟨?_, ?_, ?_, ?_⟩
  · rw [hout, tokioLines_crlf line h]
    simp
  · rw [hout, tokioLines_crlf line h]
    simp [apply_replacements_nil]
  · intro hc
    have := congrArg List.length hc
    simp at this
  · intro hcr
    rw [hout, tokioLines_lf line h hcr]
    simp [apply_replacements_nil]

theorem crlf_normalization_witness :
    (process_stream "sh".data [] "default".data false none
        ("ok".data ++ ['\r', '\n'])).2 = .ok ("ok".data ++ ['\n']) :=
  (crlf_normalization "ok".data "sh".data [] "default".data (by decide)).2.1
